import Mathlib

/-!
Shallow embedding of the benchmark harness in `timingtools.py` and of the
number-theory helpers in `mathtools.py` from the Project-Euler toolkit
repository, together with theorems settling the specified claims.

Modelling conventions:
* Durations and clock readings are rationals (`ℚ`); the Python monotonic
  clock is a function `ℕ → ℚ` giving the values returned by successive
  `timer()` calls.
* Python `float('inf')` is `⊤ : WithTop ℚ`.
* Exceptions are explicit values; Python 3 raise semantics inside an
  `except` block record the in-flight exception as the implicit `context`
  of the newly raised one, while the explicit `cause` is only set by
  `raise ... from ...` (which the source never uses).
* The callable under test is modelled by its observable behaviour: for each
  invocation index it either completes (consuming two clock readings) or
  raises a given exception.
* The unbounded `while`/`for` loops are run on explicit fuel; `none` as a
  session outcome means the loop did not terminate within the given fuel.
-/

namespace Timingtools

/-- Kinds of exceptions that can occur in the harness model.
`timeoutError` mirrors the `Timeout` class of `timingtools.py` (defined in
the source but never raised); `calleeError` mirrors `CalleeError`;
`valueError` carries the message of a Python `ValueError`. -/
inductive ExnKind where
  | memoryError : ExnKind
  | valueError : String → ExnKind
  | calleeError : ExnKind
  | timeoutError : ExnKind
  | otherError : Nat → ExnKind
deriving DecidableEq

/-- An exception value: its kind, its explicit cause (`raise ... from ...`,
Python `__cause__`) and its implicit context (`__context__`, set when an
exception is raised while another is being handled). -/
structure Exn where
  kind : ExnKind
  cause : Option ExnKind
  context : Option ExnKind
deriving DecidableEq

/-- Environment of a measurement session: the behaviour of the callable
under test (`callee i = some e` means the i-th invocation raises `e`,
`none` means it completes) and the monotonic clock readings returned by
successive `timer()` calls. -/
structure Env where
  callee : Nat → Option Exn
  clock : Nat → ℚ

/-- `handle_callee_error` from `timingtools.py`: a `MemoryError` is
re-raised unchanged (bare `raise`); any other exception is replaced by
`raise CalleeError`, which under Python 3 records the exception being
handled as the implicit context of the new `CalleeError` and leaves the
explicit cause unset. -/
def handle_callee_error (e : Exn) : Exn :=
  if e.kind = ExnKind.memoryError then e
  else ⟨ExnKind.calleeError, none, some e.kind⟩

/-- `single_run_time` of the function timers: inside `handle_callee_error`,
read the clock, invoke the callable, read the clock again, and return the
difference.  Takes the invocation index `i` and the index `t` of the next
clock reading; returns the outcome and the next unused clock index.  If the
callable raises, only the first clock reading has been consumed. -/
def single_run_time (env : Env) (i t : Nat) : Except Exn ℚ × Nat :=
  match env.callee i with
  | some e => (Except.error (handle_callee_error e), t + 1)
  | none => (Except.ok (env.clock (t + 1) - env.clock t), t + 2)

/-- `run_without_gc` from `timingtools.py`: when `without_gc` is false the
body runs with the garbage-collector state untouched; otherwise the prior
enabled state is recorded, the collector is disabled, the body runs, and
the `finally` block re-enables the collector only if it was enabled
before.  The body is a function from the collector state to a result and a
final collector state; the returned pair is the body's result and the
collector state after the `finally` block. -/
def run_without_gc {α : Type} (without_gc : Bool) (gc0 : Bool)
    (body : Bool → α × Bool) : α × Bool :=
  if without_gc = false then body gc0
  else
    let gc_was_enabled := gc0
    let r := body false
    (r.1, if gc_was_enabled then true else r.2)

instance : DecidableEq (Except Exn (WithTop ℚ)) := fun a b =>
  match a, b with
  | Except.ok x, Except.ok y =>
    if h : x = y then isTrue (by rw [h])
    else isFalse (fun hc => h (by injection hc))
  | Except.ok _, Except.error _ => isFalse (fun hc => Except.noConfusion hc)
  | Except.error _, Except.ok _ => isFalse (fun hc => Except.noConfusion hc)
  | Except.error x, Except.error y =>
    if h : x = y then isTrue (by rw [h])
    else isFalse (fun hc => h (by injection hc))

/-- Result of a terminated measurement session: the returned value or
raised exception, the number of invocation attempts, the durations of the
completed runs in order, and the garbage-collector state after the call. -/
structure SessionResult where
  result : Except Exn (WithTop ℚ)
  invocations : Nat
  durations : List ℚ
  gcFinal : Bool
deriving DecidableEq

/-- The comparison `run_time < best_run_time` of the source, on a finite
run time and a best-so-far that may still be `float('inf')` (`⊤`). -/
def lt_best (d : ℚ) (b : WithTop ℚ) : Bool :=
  match b with
  | none => true
  | some q => decide (d < q)

/-- The measurement loop of `Timer.min_run_time`.  One recursive step per
iteration of `for _ in islice(repeat(None), max_executions)`: `remaining`
is the number of iterations `islice` still allows (`none` for unbounded),
`i` the next invocation index, `t` the next clock index, `best` the best
run time so far (`⊤` for `float('inf')`), `ds` the reversed list of
completed durations, `count` the number of invocation attempts so far.
`fuel` bounds the recursion; `none` means the fuel ran out before the loop
terminated. -/
def min_loop (env : Env) (target_time : Option ℚ) (start_clock : ℚ) :
    Nat → Option Nat → Nat → Nat → WithTop ℚ → List ℚ → Nat →
      Option (Except Exn (WithTop ℚ) × List ℚ × Nat)
  | 0, remaining, _, _, best, ds, count =>
    if remaining = some 0 then some (Except.ok best, ds.reverse, count)
    else none
  | Nat.succ fuel', remaining, i, t, best, ds, count =>
    if remaining = some 0 then some (Except.ok best, ds.reverse, count)
    else
      match single_run_time env i t with
      | (Except.error e, _) => some (Except.error e, ds.reverse, count + 1)
      | (Except.ok d, t') =>
        let best' := if lt_best d best then (d : WithTop ℚ) else best
        match target_time with
        | some tt =>
          if env.clock t' - start_clock + d / 2 > tt then
            some (Except.ok best', (d :: ds).reverse, count + 1)
          else
            min_loop env target_time start_clock fuel'
              (Option.map (fun m => m - 1) remaining) (i + 1) (t' + 1) best'
              (d :: ds) (count + 1)
        | none =>
          min_loop env target_time start_clock fuel'
            (Option.map (fun m => m - 1) remaining) (i + 1) t' best'
            (d :: ds) (count + 1)

/-- The `ValueError` raised by `Timer.min_run_time` when no termination
condition is given. -/
def configError : Exn :=
  ⟨ExnKind.valueError "at least one termination condition must be used", none, none⟩

/-- `Timer.min_run_time` from `timingtools.py`: raise a `ValueError` if
`target_time`, `timeout` and `max_executions` are all `None` (the chained
`is` comparison holds exactly when all three are `None`); otherwise read
the start clock, run the measurement loop inside `run_without_gc`, and
return the best run time.  Note that the `timeout` parameter is accepted
but never consulted after the all-`None` check, exactly as in the source
(its docstring marks the timeout behaviour "tbd").  `gc0` is the
garbage-collector state when the call starts. -/
def min_run_time (env : Env) (without_gc gc0 : Bool)
    (target_time timeout : Option ℚ) (max_executions : Option Nat)
    (fuel : Nat) : Option SessionResult :=
  if target_time = none ∧ timeout = none ∧ max_executions = none then
    some ⟨Except.error configError, 0, [], gc0⟩
  else
    let pair := run_without_gc without_gc gc0
      (fun g => (min_loop env target_time (env.clock 0) fuel max_executions
        0 1 ⊤ [] 0, g))
    match pair.1 with
    | none => none
    | some (res, ds, c) => some ⟨res, c, ds, pair.2⟩

/-- `SingleArgTimer`: a function timer holding the callable under test and
the stored argument (`self.arg`, initialised to `None` by `__init__`).
The callable's behaviour depends on the stored argument. -/
structure SingleArgTimer where
  func : Option Int → Nat → Option Exn
  without_gc : Bool
  arg : Option Int

/-- `SingleArgTimer.min_run_time`: store the argument in `self.arg`, then
run `Timer.min_run_time` and return its result.  The source's trailing
`self.arg = None` is written after the `return` statement and never
executes (it is marked `# ugly, tbd`), so the timer returned still holds
the session's argument. -/
def SingleArgTimer.min_run_time (self : SingleArgTimer) (arg : Int)
    (clock : Nat → ℚ) (gc0 : Bool) (target_time timeout : Option ℚ)
    (max_executions : Option Nat) (fuel : Nat) :
    Option SessionResult × SingleArgTimer :=
  let self' : SingleArgTimer := ⟨self.func, self.without_gc, some arg⟩
  (Timingtools.min_run_time ⟨self'.func self'.arg, clock⟩ self'.without_gc gc0
    target_time timeout max_executions fuel, self')

/-- `lt_best` decides the strict order on `WithTop ℚ`. -/
lemma lt_best_iff (d : ℚ) (b : WithTop ℚ) :
    lt_best d b = true ↔ (d : WithTop ℚ) < b := by
  cases b with
  | top => simp [lt_best]
  | coe q => simp [lt_best, WithTop.coe_lt_coe]

/-- A body that never touches the garbage-collector state leaves
`run_without_gc` with the initial state on every exit, whether or not
suspension was requested. -/
lemma run_without_gc_pure {α : Type} (wg g0 : Bool) (x : α) :
    run_without_gc wg g0 (fun g => (x, g)) = (x, g0) := by
  cases wg <;> cases g0 <;> simp [run_without_gc]

/-- Characterization of `min_run_time` when at least one termination
condition is given: the session is the measurement loop, and the final
garbage-collector state is the initial one. -/
lemma min_run_time_eq_loop (env : Env) (wg g0 : Bool)
    (tt tmo : Option ℚ) (me : Option Nat) (fuel : Nat)
    (hpre : ¬(tt = none ∧ tmo = none ∧ me = none)) :
    min_run_time env wg g0 tt tmo me fuel =
      match min_loop env tt (env.clock 0) fuel me 0 1 ⊤ [] 0 with
      | none => none
      | some (res, ds, c) => some ⟨res, c, ds, g0⟩ := by
  rw [min_run_time, if_neg hpre, run_without_gc_pure]

/-- The step function of the best-run-time accumulation. -/
def best_step (b : WithTop ℚ) (d : ℚ) : WithTop ℚ :=
  if lt_best d b then (d : WithTop ℚ) else b

/-- Folding `best_step` either returns the initial accumulator (when no
element beats it) or the least element of the list (when one does). -/
lemma foldl_best_step_spec :
    ∀ (L : List ℚ) (b : WithTop ℚ),
      (L.foldl best_step b = b ∧ ∀ d ∈ L, b ≤ (d : WithTop ℚ)) ∨
      (∃ m : ℚ, L.foldl best_step b = (m : WithTop ℚ) ∧ m ∈ L ∧
        (m : WithTop ℚ) ≤ b ∧ ∀ d ∈ L, m ≤ d) := by
  intro L
  induction L with
  | nil => intro b; left; exact ⟨rfl, by simp⟩
  | cons d L ih =>
    intro b
    by_cases hlt : lt_best d b = true
    · have hdb : (d : WithTop ℚ) < b := (lt_best_iff d b).mp hlt
      have hstep : best_step b d = (d : WithTop ℚ) := by
        rw [best_step, if_pos hlt]
      rcases ih (best_step b d) with ⟨heq, hle⟩ | ⟨m, heq, hmem, hmb, hle⟩
      · right
        refine ⟨d, ?_, List.mem_cons_self d L, le_of_lt hdb, ?_⟩
        · rw [List.foldl_cons, heq, hstep]
        · intro x hx
          rcases List.mem_cons.mp hx with hx | hx
          · exact le_of_eq hx.symm
          · have := hle x hx
            rw [hstep] at this
            exact_mod_cast this
      · right
        rw [hstep] at hmb
        refine ⟨m, ?_, List.mem_cons_of_mem d hmem, le_of_lt (lt_of_le_of_lt hmb hdb), ?_⟩
        · rw [List.foldl_cons, heq]
        · intro x hx
          rcases List.mem_cons.mp hx with hx | hx
          · subst hx; exact_mod_cast hmb
          · exact hle x hx
    · have hdb : b ≤ (d : WithTop ℚ) := by
        rcases lt_or_ge ((d : WithTop ℚ)) b with hc | hc
        · exact absurd ((lt_best_iff d b).mpr hc) hlt
        · exact hc
      have hstep : best_step b d = b := by
        rw [best_step, if_neg hlt]
      rcases ih (best_step b d) with ⟨heq, hle⟩ | ⟨m, heq, hmem, hmb, hle⟩
      · left
        constructor
        · rw [List.foldl_cons, heq, hstep]
        · intro x hx
          rcases List.mem_cons.mp hx with hx | hx
          · subst hx; exact hdb
          · have := hle x hx; rw [hstep] at this; exact this
      · right
        rw [hstep] at hmb
        refine ⟨m, ?_, List.mem_cons_of_mem d hmem, hmb, ?_⟩
        · rw [List.foldl_cons, heq]
        · intro x hx
          rcases List.mem_cons.mp hx with hx | hx
          · subst hx; exact_mod_cast le_trans hmb hdb
          · exact hle x hx


/-- A measurement loop that returns normally appends to the accumulated
list the durations of the runs it completed, returns the fold of
`best_step` over them, and every completed duration is a difference of
consecutive clock readings. -/
lemma min_loop_ok (env : Env) (ttq : Option ℚ) (sc : ℚ) :
    ∀ (fuel : Nat) (rem : Option Nat) (i t : Nat) (best : WithTop ℚ)
      (ds : List ℚ) (count : Nat) (v : WithTop ℚ) (ds' : List ℚ) (c' : Nat),
      min_loop env ttq sc fuel rem i t best ds count =
        some (Except.ok v, ds', c') →
      ∃ L : List ℚ, ds' = ds.reverse ++ L ∧ v = L.foldl best_step best ∧
        ∀ d ∈ L, ∃ u, d = env.clock (u + 1) - env.clock u := by
  intro fuel
  induction fuel with
  | zero =>
    intro rem i t best ds count v ds' c' h
    rw [min_loop] at h
    by_cases hrem : rem = some 0
    · rw [if_pos hrem] at h
      simp only [Option.some.injEq, Prod.mk.injEq, Except.ok.injEq] at h
      exact ⟨[], by simp [← h.2.1], by simp [h.1], by simp⟩
    · rw [if_neg hrem] at h
      exact Option.noConfusion h
  | succ fuel ih =>
    intro rem i t best ds count v ds' c' h
    rw [min_loop] at h
    by_cases hrem : rem = some 0
    · rw [if_pos hrem] at h
      simp only [Option.some.injEq, Prod.mk.injEq, Except.ok.injEq] at h
      exact ⟨[], by simp [← h.2.1], by simp [h.1], by simp⟩
    · rw [if_neg hrem] at h
      cases hc : env.callee i with
      | some e =>
        simp only [single_run_time, hc] at h
        simp at h
      | none =>
        simp only [single_run_time, hc] at h
        split at h
        · split at h
          · simp only [Option.some.injEq, Prod.mk.injEq, Except.ok.injEq,
              List.reverse_cons] at h
            refine ⟨[env.clock (t + 1) - env.clock t], ?_, ?_, ?_⟩
            · rw [← h.2.1]
            · rw [← h.1]; rfl
            · intro d hd
              rcases List.mem_cons.mp hd with hd | hd
              · exact ⟨t, hd⟩
              · simp at hd
          · obtain ⟨L, hds, hv, hck⟩ := ih _ _ _ _ _ _ _ _ _ h
            refine ⟨(env.clock (t + 1) - env.clock t) :: L, ?_, ?_, ?_⟩
            · rw [hds]; simp
            · rw [hv]; rfl
            · intro d hd
              rcases List.mem_cons.mp hd with hd | hd
              · exact ⟨t, hd⟩
              · exact hck d hd
        · obtain ⟨L, hds, hv, hck⟩ := ih _ _ _ _ _ _ _ _ _ h
          refine ⟨(env.clock (t + 1) - env.clock t) :: L, ?_, ?_, ?_⟩
          · rw [hds]; simp
          · rw [hv]; rfl
          · intro d hd
            rcases List.mem_cons.mp hd with hd | hd
            · exact ⟨t, hd⟩
            · exact hck d hd

/-- A measurement loop that raises does so because of the first invocation
that raised: all invocations from the starting index up to some index `j`
completed, invocation `j` raised `e0`, the loop's exception is
`handle_callee_error e0`, and the attempt counter advanced to the raising
invocation inclusive. -/
lemma min_loop_error (env : Env) (ttq : Option ℚ) (sc : ℚ) :
    ∀ (fuel : Nat) (rem : Option Nat) (i t : Nat) (best : WithTop ℚ)
      (ds : List ℚ) (count : Nat) (e' : Exn) (ds' : List ℚ) (c' : Nat),
      min_loop env ttq sc fuel rem i t best ds count =
        some (Except.error e', ds', c') →
      ∃ j e0, i ≤ j ∧ env.callee j = some e0 ∧
        (∀ m, i ≤ m → m < j → env.callee m = none) ∧
        e' = handle_callee_error e0 ∧ c' = count + (j - i) + 1 := by
  intro fuel
  induction fuel with
  | zero =>
    intro rem i t best ds count e' ds' c' h
    rw [min_loop] at h
    by_cases hrem : rem = some 0
    · rw [if_pos hrem] at h
      simp at h
    · rw [if_neg hrem] at h
      exact Option.noConfusion h
  | succ fuel ih =>
    intro rem i t best ds count e' ds' c' h
    rw [min_loop] at h
    by_cases hrem : rem = some 0
    · rw [if_pos hrem] at h
      simp at h
    · rw [if_neg hrem] at h
      cases hc : env.callee i with
      | some e =>
        simp only [single_run_time, hc] at h
        simp only [Option.some.injEq, Prod.mk.injEq, Except.error.injEq] at h
        refine ⟨i, e, le_refl i, hc, ?_, h.1.symm, ?_⟩
        · intro m him hmi
          omega
        · omega
      | none =>
        simp only [single_run_time, hc] at h
        split at h
        · split at h
          · simp at h
          · obtain ⟨j, e0, hij, hj, hbetween, he, hcount⟩ := ih _ _ _ _ _ _ _ _ _ h
            refine ⟨j, e0, le_trans (Nat.le_succ i) hij, hj, ?_, he, ?_⟩
            · intro m him hmj
              rcases Nat.eq_or_lt_of_le him with hmi | hmi
              · rw [← hmi]; exact hc
              · exact hbetween m hmi hmj
            · omega
        · obtain ⟨j, e0, hij, hj, hbetween, he, hcount⟩ := ih _ _ _ _ _ _ _ _ _ h
          refine ⟨j, e0, le_trans (Nat.le_succ i) hij, hj, ?_, he, ?_⟩
          · intro m him hmj
            rcases Nat.eq_or_lt_of_le him with hmi | hmi
            · rw [← hmi]; exact hc
            · exact hbetween m hmi hmj
          · omega

/-- A callable that always completes, with clock readings advancing one
second per `timer()` call. -/
def envUnit : Env := ⟨fun _ => none, fun t => (t : ℚ)⟩

/-- A callable that always completes, with a clock frozen at zero. -/
def envZero : Env := ⟨fun _ => none, fun _ => 0⟩

/-- A callable whose first invocation raises a `ValueError`. -/
def envRaise : Env :=
  ⟨fun i => if i = 0 then some ⟨ExnKind.valueError "boom", none, none⟩ else none,
   fun t => (t : ℚ)⟩

/-- A callable whose first invocation raises a `MemoryError`. -/
def envMem : Env :=
  ⟨fun i => if i = 0 then some ⟨ExnKind.memoryError, none, none⟩ else none,
   fun t => (t : ℚ)⟩

/-- C1: for every call to `min_run_time` satisfying the precondition (at
least one termination condition set) whose session, run against a
monotonic clock, terminates normally with at least one completed run, the
returned value is exactly the minimum of the measured single-run
durations, a non-negative value. -/
theorem min_run_time_returns_min (env : Env) (wg g0 : Bool)
    (tt tmo : Option ℚ) (me : Option Nat) (fuel : Nat) (r : SessionResult)
    (v : WithTop ℚ)
    (hmono : Monotone env.clock)
    (hpre : ¬(tt = none ∧ tmo = none ∧ me = none))
    (hr : min_run_time env wg g0 tt tmo me fuel = some r)
    (hok : r.result = Except.ok v)
    (hne : r.durations ≠ []) :
    ∃ m : ℚ, v = (m : WithTop ℚ) ∧ m ∈ r.durations ∧
      (∀ d ∈ r.durations, m ≤ d) ∧ 0 ≤ m := by
  rw [min_run_time_eq_loop env wg g0 tt tmo me fuel hpre] at hr
  cases hloop : min_loop env tt (env.clock 0) fuel me 0 1 ⊤ [] 0 with
  | none => rw [hloop] at hr; exact Option.noConfusion hr
  | some trip =>
    obtain ⟨res, ds, c⟩ := trip
    rw [hloop] at hr
    have hrr : r = ⟨res, c, ds, g0⟩ := by
      injection hr with h1; exact h1.symm
    subst hrr
    have hres : res = Except.ok v := hok
    rw [hres] at hloop
    obtain ⟨L, hds, hv, hck⟩ :=
      min_loop_ok env tt (env.clock 0) fuel me 0 1 ⊤ [] 0 v ds c hloop
    have hL : ds = L := by rw [hds]; simp
    have hne' : L ≠ [] := by
      intro hnil
      exact hne (by simp [hL, hnil])
    show ∃ m : ℚ, v = (m : WithTop ℚ) ∧ m ∈ ds ∧ (∀ d ∈ ds, m ≤ d) ∧ 0 ≤ m
    rcases foldl_best_step_spec L ⊤ with ⟨heq, hle⟩ | ⟨m, heq, hmem, _, hle⟩
    · obtain ⟨d0, hd0⟩ := List.exists_mem_of_ne_nil L hne'
      exact absurd (hle d0 hd0) (WithTop.not_top_le_coe d0)
    · refine ⟨m, hv.trans heq, hL ▸ hmem, ?_, ?_⟩
      · intro d hd
        exact hle d (hL ▸ hd)
      · obtain ⟨u, hu⟩ := hck m hmem
        rw [hu]
        exact sub_nonneg.mpr (hmono (Nat.le_succ u))

/-- C1 witness: a session of two completed unit-duration runs returns 1,
the minimum of the two durations. -/
theorem min_run_time_returns_min_witness :
    ∃ m : ℚ, ((1 : ℚ) : WithTop ℚ) = (m : WithTop ℚ) ∧ m ∈ [(1 : ℚ), 1] ∧
      (∀ d ∈ [(1 : ℚ), 1], m ≤ d) ∧ 0 ≤ m :=
  min_run_time_returns_min envUnit true true none none (some 2) 3
    ⟨Except.ok ((1 : ℚ) : WithTop ℚ), 2, [1, 1], true⟩ ((1 : ℚ) : WithTop ℚ)
    (by
      intro a b hab
      show ((a : ℚ)) ≤ (b : ℚ)
      exact_mod_cast hab)
    (by simp)
    (by norm_num [min_run_time, min_loop, single_run_time, run_without_gc,
      envUnit, lt_best]; simp)
    rfl
    (by simp)

/-- C2 (code refutation): with `timeout = 1`, a callable that always
completes and a clock advancing one second per reading, the session
performs both allowed runs and returns the measured minimum, although the
elapsed session time (last clock reading minus the first) is 4 seconds,
beyond the timeout: `min_run_time` never consults `timeout` and never
raises a Timeout condition. -/
theorem min_run_time_ignores_timeout :
    min_run_time envUnit true true none (some 1) (some 2) 3 =
      some ⟨Except.ok ((1 : ℚ) : WithTop ℚ), 2, [1, 1], true⟩ ∧
    envUnit.clock 4 - envUnit.clock 0 > 1 := by
  constructor
  · norm_num [min_run_time, min_loop, single_run_time, run_without_gc,
      envUnit, lt_best]
    simp
  · norm_num [envUnit]


/-- C3: when the first invocation that raises during a session raises a
memory-exhaustion error, `min_run_time` propagates exactly that exception
value, never wrapped into a `CalleeError`. -/
theorem min_run_time_memory_error_exact (env : Env) (wg g0 : Bool)
    (tt tmo : Option ℚ) (me : Option Nat) (fuel : Nat) (r : SessionResult)
    (i : Nat) (e e' : Exn)
    (hpre : ¬(tt = none ∧ tmo = none ∧ me = none))
    (hprev : ∀ j, j < i → env.callee j = none)
    (hi : env.callee i = some e)
    (hkind : e.kind = ExnKind.memoryError)
    (hr : min_run_time env wg g0 tt tmo me fuel = some r)
    (he : r.result = Except.error e') :
    e' = e := by
  rw [min_run_time_eq_loop env wg g0 tt tmo me fuel hpre] at hr
  cases hloop : min_loop env tt (env.clock 0) fuel me 0 1 ⊤ [] 0 with
  | none => rw [hloop] at hr; exact Option.noConfusion hr
  | some trip =>
    obtain ⟨res, ds, c⟩ := trip
    rw [hloop] at hr
    have hrr : r = ⟨res, c, ds, g0⟩ := by
      injection hr with h1; exact h1.symm
    subst hrr
    have hres : res = Except.error e' := he
    rw [hres] at hloop
    obtain ⟨j, e0, _, hj, hbetween, hhe, _⟩ :=
      min_loop_error env tt (env.clock 0) fuel me 0 1 ⊤ [] 0 e' ds c hloop
    have hji : j = i := by
      rcases Nat.lt_trichotomy j i with hlt | heq | hgt
      · rw [hprev j hlt] at hj
        exact Option.noConfusion hj
      · exact heq
      · rw [hbetween i (Nat.zero_le i) hgt] at hi
        exact Option.noConfusion hi
    subst hji
    rw [hi] at hj
    have he0 : e = e0 := by injection hj
    rw [hhe, ← he0]
    simp [handle_callee_error, hkind]

/-- C3 witness: a callable raising a `MemoryError` on its first invocation
makes the session raise exactly that exception value. -/
theorem min_run_time_memory_error_exact_witness :
    min_run_time envMem true true none none (some 3) 5 =
      some ⟨Except.error ⟨ExnKind.memoryError, none, none⟩, 1, [], true⟩ ∧
    (⟨ExnKind.memoryError, none, none⟩ : Exn) = ⟨ExnKind.memoryError, none, none⟩ := by
  constructor
  · norm_num [min_run_time, min_loop, single_run_time, run_without_gc,
      envMem, handle_callee_error]
    simp
  · exact min_run_time_memory_error_exact envMem true true none none (some 3) 5
      ⟨Except.error ⟨ExnKind.memoryError, none, none⟩, 1, [], true⟩ 0
      ⟨ExnKind.memoryError, none, none⟩ ⟨ExnKind.memoryError, none, none⟩
      (by simp)
      (fun j hj => absurd hj (Nat.not_lt_zero j))
      rfl
      rfl
      (by norm_num [min_run_time, min_loop, single_run_time, run_without_gc,
        envMem, handle_callee_error]; simp)
      rfl

/-- C4 (amended): when the first invocation that raises during a session
raises a non-memory exception, the session stops at that invocation
(attempt counter equals the raising invocation's index plus one) and
raises a `CalleeError`; the original exception is recorded as its
implicit context, while the explicit cause is unset because the source
re-raises without `from`. -/
theorem min_run_time_callee_error_context (env : Env) (wg g0 : Bool)
    (tt tmo : Option ℚ) (me : Option Nat) (fuel : Nat) (r : SessionResult)
    (i : Nat) (e e' : Exn)
    (hpre : ¬(tt = none ∧ tmo = none ∧ me = none))
    (hprev : ∀ j, j < i → env.callee j = none)
    (hi : env.callee i = some e)
    (hkind : e.kind ≠ ExnKind.memoryError)
    (hr : min_run_time env wg g0 tt tmo me fuel = some r)
    (he : r.result = Except.error e') :
    e' = ⟨ExnKind.calleeError, none, some e.kind⟩ ∧ r.invocations = i + 1 := by
  rw [min_run_time_eq_loop env wg g0 tt tmo me fuel hpre] at hr
  cases hloop : min_loop env tt (env.clock 0) fuel me 0 1 ⊤ [] 0 with
  | none => rw [hloop] at hr; exact Option.noConfusion hr
  | some trip =>
    obtain ⟨res, ds, c⟩ := trip
    rw [hloop] at hr
    have hrr : r = ⟨res, c, ds, g0⟩ := by
      injection hr with h1; exact h1.symm
    subst hrr
    have hres : res = Except.error e' := he
    rw [hres] at hloop
    obtain ⟨j, e0, _, hj, hbetween, hhe, hcount⟩ :=
      min_loop_error env tt (env.clock 0) fuel me 0 1 ⊤ [] 0 e' ds c hloop
    have hji : j = i := by
      rcases Nat.lt_trichotomy j i with hlt | heq | hgt
      · rw [hprev j hlt] at hj
        exact Option.noConfusion hj
      · exact heq
      · rw [hbetween i (Nat.zero_le i) hgt] at hi
        exact Option.noConfusion hi
    rw [hji] at hj hcount
    rw [hi] at hj
    have he0 : e = e0 := by injection hj
    constructor
    · rw [hhe, ← he0]
      simp [handle_callee_error, hkind]
    · show c = i + 1
      omega

/-- C4 witness: the amended statement at a callable whose first invocation
raises a `ValueError`: one attempt, a `CalleeError` whose context is the
value error. -/
theorem min_run_time_callee_error_context_witness :
    (⟨ExnKind.calleeError, none, some (ExnKind.valueError "boom")⟩ : Exn) =
      ⟨ExnKind.calleeError, none,
        some ((⟨ExnKind.valueError "boom", none, none⟩ : Exn).kind)⟩ ∧
    (⟨Except.error ⟨ExnKind.calleeError, none, some (ExnKind.valueError "boom")⟩,
      1, [], true⟩ : SessionResult).invocations = 0 + 1 :=
  min_run_time_callee_error_context envRaise true true none none (some 3) 5
    ⟨Except.error ⟨ExnKind.calleeError, none, some (ExnKind.valueError "boom")⟩,
      1, [], true⟩ 0
    ⟨ExnKind.valueError "boom", none, none⟩
    ⟨ExnKind.calleeError, none, some (ExnKind.valueError "boom")⟩
    (by simp)
    (fun j hj => absurd hj (Nat.not_lt_zero j))
    rfl
    (by simp)
    (by norm_num [min_run_time, min_loop, single_run_time, run_without_gc,
      envRaise, handle_callee_error]; simp)
    rfl

/-- C4 (counterexample to the claim as stated): the `CalleeError` raised
for a callable failing with a `ValueError` has `cause = none`: the
original exception is not recorded as the explicit cause (only as the
implicit context), because the source raises `CalleeError` without
`from`. -/
theorem callee_error_cause_unset_counterexample :
    min_run_time envRaise true true none none (some 3) 5 =
      some ⟨Except.error ⟨ExnKind.calleeError, none,
        some (ExnKind.valueError "boom")⟩, 1, [], true⟩ ∧
    (⟨ExnKind.calleeError, none, some (ExnKind.valueError "boom")⟩ : Exn).cause =
      none := by
  constructor
  · norm_num [min_run_time, min_loop, single_run_time, run_without_gc,
      envRaise, handle_callee_error]
    simp
  · rfl

/-- C5: with GC suspension requested, the garbage-collector state after a
terminated session equals the state before it, for every initial state and
every way the session can end (normal return, early break out of the
measurement loop, or an exception). -/
theorem min_run_time_restores_gc (env : Env) (g0 : Bool)
    (tt tmo : Option ℚ) (me : Option Nat) (fuel : Nat) (r : SessionResult)
    (hr : min_run_time env true g0 tt tmo me fuel = some r) :
    r.gcFinal = g0 := by
  by_cases hpre : tt = none ∧ tmo = none ∧ me = none
  · rw [min_run_time, if_pos hpre] at hr
    have hrr : r = ⟨Except.error configError, 0, [], g0⟩ := by
      injection hr with h1; exact h1.symm
    rw [hrr]
  · rw [min_run_time_eq_loop env true g0 tt tmo me fuel hpre] at hr
    cases hloop : min_loop env tt (env.clock 0) fuel me 0 1 ⊤ [] 0 with
    | none => rw [hloop] at hr; exact Option.noConfusion hr
    | some trip =>
      obtain ⟨res, ds, c⟩ := trip
      rw [hloop] at hr
      have hrr : r = ⟨res, c, ds, g0⟩ := by
        injection hr with h1; exact h1.symm
      rw [hrr]

/-- C5 witness: a session started with the collector disabled ends with
the collector still disabled (the prior state is mirrored, not
force-enabled). -/
theorem min_run_time_restores_gc_witness :
    min_run_time envZero true false none none (some 0) 0 =
      some ⟨Except.ok ⊤, 0, [], false⟩ ∧
    (⟨Except.ok ⊤, 0, [], false⟩ : SessionResult).gcFinal = false :=
  ⟨rfl, min_run_time_restores_gc envZero false none none (some 0) 0
    ⟨Except.ok ⊤, 0, [], false⟩ rfl⟩

/-- C6: with `target_time`, `timeout` and `max_executions` all unset,
`min_run_time` fails with the configuration `ValueError` and performs zero
invocations of the callable, whatever the environment. -/
theorem min_run_time_config_error (env : Env) (wg g0 : Bool) (fuel : Nat) :
    min_run_time env wg g0 none none none fuel =
      some ⟨Except.error configError, 0, [], g0⟩ := by
  rw [min_run_time, if_pos ⟨rfl, rfl, rfl⟩]

/-- C7 (counterexample to the claim as stated): a call with
`max_executions = 0` does not fail with a Configuration error: it returns
normally, with zero invocations and `float('inf')` as its value. -/
theorem zero_max_executions_counterexample :
    min_run_time envZero true true none none (some 0) 5 =
      some ⟨Except.ok ⊤, 0, [], true⟩ ∧
    ¬∃ err : Exn, (Except.ok (⊤ : WithTop ℚ) : Except Exn (WithTop ℚ)) =
      Except.error err := by
  constructor
  · rfl
  · rintro ⟨err, herr⟩
    exact Except.noConfusion herr

/-- C7 (amended): with `max_executions = 0` and any values of the other
two limits, `min_run_time` performs zero invocations and returns the
infinite sentinel `float('inf')` as a normal result instead of raising a
Configuration error; only the all-unset configuration is rejected. -/
theorem min_run_time_zero_executions (env : Env) (wg g0 : Bool)
    (tt tmo : Option ℚ) (fuel : Nat) :
    min_run_time env wg g0 tt tmo (some 0) fuel =
      some ⟨Except.ok ⊤, 0, [], g0⟩ := by
  have hpre : ¬(tt = none ∧ tmo = none ∧ (some 0 : Option Nat) = none) := by
    rintro ⟨-, -, hmax⟩
    exact Option.noConfusion hmax
  rw [min_run_time_eq_loop env wg g0 tt tmo (some 0) fuel hpre]
  cases fuel with
  | zero => rfl
  | succ fuel => rfl

/-- A timer whose callable always completes, for the retained-argument
session. -/
def timer0 : SingleArgTimer := ⟨fun _ _ => none, true, none⟩

/-- C8 (code refutation): after a completed `SingleArgTimer.min_run_time`
session, the timer still holds the session's argument in `self.arg`; the
source's `self.arg = None` stands after the `return` statement and never
executes, so the stored argument is retained across sessions. -/
theorem singlearg_timer_retains_arg :
    (SingleArgTimer.min_run_time timer0 42 (fun _ => 0) true
      none none (some 1) 2).2.arg = some 42 ∧
    (SingleArgTimer.min_run_time timer0 42 (fun _ => 0) true
      none none (some 1) 2).1 =
      some ⟨Except.ok ((0 : ℚ) : WithTop ℚ), 1, [0], true⟩ := by
  constructor
  · rfl
  · norm_num [SingleArgTimer.min_run_time, timer0, min_run_time, min_loop,
      single_run_time, run_without_gc, lt_best]
    simp

end Timingtools

namespace Mathtools

/-- `_least_divisor_limit` from `mathtools.py`: an exclusive upper limit
for the least non-trivial divisor, `int(math.sqrt(n)) + 1`; the floating
square root of the source is modelled as the exact integer square root
(they agree on the inputs used here). -/
def _least_divisor_limit (n : Nat) : Nat := Nat.sqrt n + 1

/-- The `while` loop of `prime_factors` from `mathtools.py`, on explicit
fuel (each step either divides `n` down or advances the divisor, so
enough fuel makes the fallback unreachable).  `k` is the state of the
`possible_odd_factors = _possible_odd_primes()` iterator: its next value
is `3 + 2 * k`.  After a division the source assigns the recomputed limit
to `next_factor_stop`, a variable that is never read — the loop bound
`next_factor_limit` stays at its initial value; the dead assignment is
kept below as an unused binding. -/
def pf_loop : Nat → Nat → Nat → Nat → Nat → List Nat
  | 0, n, _, _, _ => [n]
  | Nat.succ fuel', n, divisor, limit, k =>
    if divisor < limit then
      if n % divisor = 0 then
        let _next_factor_stop := _least_divisor_limit (n / divisor)
        divisor :: pf_loop fuel' (n / divisor) divisor limit k
      else
        pf_loop fuel' n (3 + 2 * k) limit (k + 1)
    else [n]

/-- `prime_factors` from `mathtools.py`, as the list of yielded values:
nothing for `n = 1`; otherwise the loop while
`divisor < next_factor_limit` (computed once from the original `n`),
followed by the final `yield n` of the remaining cofactor. -/
def prime_factors (n : Nat) : List Nat :=
  if n = 1 then []
  else pf_loop (2 * n + 2 * _least_divisor_limit n) n 2 (_least_divisor_limit n) 0

/-- C9 (code refutation): `prime_factors 8` yields `2, 2, 2, 1` — the
trailing `1`, produced by the final `yield n` after the loop divided the
cofactor down to 1, is not a prime and breaks the ascending order,
because the loop bound `next_factor_limit` is never updated (the
recomputed limit lands in the unused variable `next_factor_stop`). -/
theorem prime_factors_eight :
    prime_factors 8 = [2, 2, 2, 1] ∧ ¬ Nat.Prime 1 := by
  have hsq : Nat.sqrt 8 = 2 := Nat.sqrt_add_eq 2 (show 4 ≤ 2 + 2 by norm_num)
  constructor
  · unfold prime_factors _least_divisor_limit
    rw [hsq]
    rfl
  · decide

/-- The last element `seq[-1]` of the Python `range(start, stop, step)`
as computed by `arithmetic_series` for a nonempty range with positive
step: `start + ((stop - start - 1) // step) * step`; Python `//` is floor
division, `Int.fdiv`. -/
def aseries_last (start stop step : Int) : Int :=
  start + ((stop - start - 1).fdiv step) * step

/-- `num_elements = (last - first) // step + 1` from `arithmetic_series`,
with `first = seq[0] = start`. -/
def aseries_num_elements (start stop step : Int) : Int :=
  (aseries_last start stop step - start).fdiv step + 1

/-- `arithmetic_series` from `mathtools.py` with all three range
arguments given: `0` for an empty range, otherwise
`num_elements * (first + last) // 2`.  The `__debug__` input checks
(`start ≤ stop`, `step` a positive integer) are the hypotheses of the
theorems below. -/
def arithmetic_series (start stop step : Int) : Int :=
  if start = stop then 0
  else (aseries_num_elements start stop step *
    (start + aseries_last start stop step)).fdiv 2

/-- Number of elements of the Python `range(start, stop, step)` for a
positive step (the spec side of the comparison): the ceiling of
`(stop - start) / step`, clamped at zero. -/
def rangeLen (start stop step : Int) : Nat :=
  ((stop - start + step - 1).fdiv step).toNat

/-- The Python `range(start, stop, step)` for a positive step, as the
list of its elements (the spec side of the comparison): the claim
compares `arithmetic_series` against `sum(range(start, stop, step))`. -/
def pythonRange (start stop step : Int) : List Int :=
  (List.range (rangeLen start stop step)).map
    (fun (idx : Nat) => start + (idx : Int) * step)

/-- Gauss pairing with no division: twice the sum of an arithmetic
progression of `N` terms. -/
lemma two_mul_range_sum (a s : Int) :
    ∀ N : Nat, 2 * ((List.range N).map (fun (idx : Nat) => a + (idx : Int) * s)).sum =
      N * (2 * a + ((N : Int) - 1) * s) := by
  intro N
  induction N with
  | zero => simp
  | succ N ih =>
    rw [List.range_succ, List.map_append, List.sum_append]
    simp only [List.map_cons, List.map_nil, List.sum_cons, List.sum_nil, add_zero]
    rw [mul_add, ih]
    push_cast
    ring

/-- `(last - first) // step` recovers the integer multiplier exactly. -/
lemma aseries_num_elements_eq (start stop step : Int) (h : step ≠ 0) :
    aseries_num_elements start stop step = (stop - start - 1).fdiv step + 1 := by
  unfold aseries_num_elements aseries_last
  rw [add_sub_cancel_left, Int.mul_fdiv_cancel _ h]

/-- `num_elements * (first + last)` is always even: it equals
`(k + 1) * (2 * start + k * step)` and `k * (k + 1)` is even. -/
lemma aseries_product_even (start stop step : Int) (h : step ≠ 0) :
    2 ∣ aseries_num_elements start stop step *
      (start + aseries_last start stop step) := by
  obtain ⟨c, hc⟩ := Int.even_mul_succ_self ((stop - start - 1).fdiv step)
  refine ⟨((stop - start - 1).fdiv step + 1) * start + c * step, ?_⟩
  rw [aseries_num_elements_eq start stop step h]
  unfold aseries_last
  calc ((stop - start - 1).fdiv step + 1) *
        (start + (start + (stop - start - 1).fdiv step * step))
      = (stop - start - 1).fdiv step * ((stop - start - 1).fdiv step + 1) * step +
        ((stop - start - 1).fdiv step + 1) * (2 * start) := by ring
    _ = (c + c) * step +
        ((stop - start - 1).fdiv step + 1) * (2 * start) := by rw [hc]
    _ = 2 * (((stop - start - 1).fdiv step + 1) * start + c * step) := by ring

/-- C10: for `start ≤ stop` and a positive integer `step`,
`arithmetic_series` returns exactly `sum(range(start, stop, step))`, and
the closed form divides evenly: `num_elements * (first + last)` is always
even, so the floor division by 2 is exact. -/
theorem arithmetic_series_eq_sum (start stop step : Int)
    (h1 : start ≤ stop) (h2 : 1 ≤ step) :
    arithmetic_series start stop step = (pythonRange start stop step).sum ∧
    2 ∣ aseries_num_elements start stop step *
      (start + aseries_last start stop step) := by
  have hstep0 : step ≠ 0 := by omega
  have hstepnn : (0 : Int) ≤ step := by omega
  refine ⟨?_, aseries_product_even start stop step hstep0⟩
  rcases eq_or_lt_of_le h1 with heq | hlt
  · subst heq
    unfold arithmetic_series
    rw [if_pos rfl]
    have hlen0 : rangeLen start start step = 0 := by
      unfold rangeLen
      rw [sub_self, zero_add, Int.fdiv_eq_ediv _ hstepnn,
        Int.ediv_eq_zero_of_lt (by omega) (by omega)]
      rfl
    rw [pythonRange, hlen0]
    simp
  · have hne : start ≠ stop := ne_of_lt hlt
    have hfd : (stop - start - 1).fdiv step = (stop - start - 1) / step :=
      Int.fdiv_eq_ediv _ hstepnn
    have hknn : 0 ≤ (stop - start - 1) / step :=
      Int.ediv_nonneg (by omega) (by omega)
    have hlen : (rangeLen start stop step : Int) = (stop - start - 1) / step + 1 := by
      unfold rangeLen
      have hsplit : stop - start + step - 1 = stop - start - 1 + 1 * step := by ring
      rw [hsplit, Int.fdiv_eq_ediv _ hstepnn, Int.add_mul_ediv_right _ _ hstep0]
      exact Int.toNat_of_nonneg (add_nonneg hknn zero_le_one)
    have hnum : aseries_num_elements start stop step = (stop - start - 1) / step + 1 := by
      rw [aseries_num_elements_eq start stop step hstep0, hfd]
    have hlast : aseries_last start stop step =
        start + ((stop - start - 1) / step) * step := by
      unfold aseries_last
      rw [hfd]
    have hsum2 : 2 * (pythonRange start stop step).sum =
        (rangeLen start stop step : Int) *
          (2 * start + ((rangeLen start stop step : Int) - 1) * step) := by
      unfold pythonRange
      exact two_mul_range_sum start step (rangeLen start stop step)
    have hprod : aseries_num_elements start stop step *
        (start + aseries_last start stop step) =
        2 * (pythonRange start stop step).sum := by
      rw [hsum2, hlen, hnum, hlast]
      ring
    unfold arithmetic_series
    rw [if_neg hne, hprod, Int.fdiv_eq_ediv _ (by omega : (0 : Int) ≤ 2),
      Int.mul_ediv_cancel_left _ (by omega : (2 : Int) ≠ 0)]

/-- C10 witness: the docstring example `arithmetic_series(-4, 10, 3)`
equals `sum(range(-4, 10, 3)) = -4 + -1 + 2 + 5 + 8 = 10`. -/
theorem arithmetic_series_eq_sum_witness :
    (arithmetic_series (-4) 10 3 = (pythonRange (-4) 10 3).sum ∧
      2 ∣ aseries_num_elements (-4) 10 3 * ((-4) + aseries_last (-4) 10 3)) ∧
    arithmetic_series (-4) 10 3 = 10 := by
  constructor
  · exact arithmetic_series_eq_sum (-4) 10 3 (by omega) (by omega)
  · rfl

end Mathtools
